import Mathlib

/-!
Verification development for the solid_dmft DMFT orchestration layer.

The definitions below are a shallow embedding of the Python sources
`src/python/solid_dmft/dmft_cycle.py` and
`src/python/solid_dmft/dmft_tools/initial_self_energies.py`.

Modelling conventions:
* real/complex floating-point values are modelled by `ℚ` (the claims under
  study only involve exact arithmetic identities and tolerance comparisons);
* numpy matrices are `List (List ℚ)`;
* in-place mutation is modelled by explicit state threading;
* Python exceptions are modelled by `Except`;
* external collaborators (the `SumkDFT` object of triqs_dft_tools: `calc_dc`,
  `put_Sigma`, `add_dc`) are modelled at their interface, in the
  `use_rotations == False` configuration (rotations only affect basis
  presentation); the double-counting base formulas and the GW kernels are kept
  parametric (the theorems quantify over them).
-/

/-! ## Basic matrix model (numpy arrays over ℚ) -/

/-- A (square) numpy matrix, as a list of rows. -/
abbrev Mat := List (List ℚ)

/-- A density matrix or double-counting channel map: block name to matrix,
as an ordered association list (Python dict with insertion order). -/
abbrev DensMat := List (String × Mat)

/-- Map with the element's position (Python `enumerate` starting at `i`). -/
def mapWithIndex (f : Nat → α → β) : Nat → List α → List β
  | _, [] => []
  | i, a :: as => f i a :: mapWithIndex f (i + 1) as

/-- Python `enumerate` (starting at 0). -/
def enumL (l : List α) : List (Nat × α) := mapWithIndex (fun i a => (i, a)) 0 l

/-- All-or-nothing traversal of a list with a fallible function
(a Python loop that may raise). -/
def traverseOpt (f : α → Option β) : List α → Option (List β)
  | [] => some []
  | a :: as =>
    match f a, traverseOpt f as with
    | some b, some bs => some (b :: bs)
    | _, _ => none

/-- Sum of `r.getD (i + position) 0` over the rows (trace helper). -/
def diagSum : Nat → Mat → ℚ
  | _, [] => 0
  | i, r :: rs => r.getD i 0 + diagSum (i + 1) rs

/-- Trace of a matrix: sum of diagonal entries. -/
def matTrace (m : Mat) : ℚ := diagSum 0 m

/-- Entrywise subtraction of two equally-shaped matrices
(`a - b` in numpy; the embedding only applies it to equal shapes). -/
def matSub (a b : Mat) : Mat :=
  a.zipWith (fun ra rb => ra.zipWith (fun x y => x - y) rb) b

/-- Scalar multiple of a matrix. -/
def scaleMat (c : ℚ) (m : Mat) : Mat :=
  m.map (fun r => r.map (fun x => c * x))

/-- `np.identity n`. -/
def identityMat (n : Nat) : Mat :=
  (List.range n).map (fun i => (List.range n).map (fun j => if i = j then (1 : ℚ) else 0))

/-- `np.diag v`. -/
def diagMat (v : List ℚ) : Mat :=
  (List.range v.length).map (fun i =>
    (List.range v.length).map (fun j => if i = j then v.getD i 0 else 0))

/-- `np.fill_diagonal m c`: overwrite the diagonal entries with `c`. -/
def fillDiag (m : Mat) (c : ℚ) : Mat :=
  mapWithIndex (fun i r => mapWithIndex (fun j x => if j = i then c else x) 0 r) 0 m

/-- Set every entry of a matrix to zero, keeping its shape (`gf.zero()`). -/
def zeroLike (m : Mat) : Mat :=
  m.map (fun r => r.map (fun _ => (0 : ℚ)))

/-- numpy addition of two square matrices including scalar (1×1) broadcasting:
shapes must agree, or one operand must be 1×1; otherwise a shape error. -/
def matAddB (a b : Mat) : Option Mat :=
  if a.length = b.length then
    some (a.zipWith (fun ra rb => ra.zipWith (fun x y => x + y) rb) b)
  else if b.length = 1 then
    some (a.map (fun r => r.map (fun x => x + ((b.headD []).headD 0))))
  else if a.length = 1 then
    some (b.map (fun r => r.map (fun y => ((a.headD []).headD 0) + y)))
  else none

/-- The `(0,0)` entry of a matrix (`m[0][0]`). -/
def entry00 (m : Mat) : ℚ := (m.headD []).headD 0

/-- `|x|` on ℚ as used in the `np.allclose` model. -/
def ratAbs (q : ℚ) : ℚ := if q < 0 then -q else q

/-- `np.allclose(a, b, atol, rtol=0)` for equally-shaped matrices:
every entrywise difference is at most `atol` (shape mismatch is `false`). -/
def allcloseMat (a b : Mat) (atol : ℚ) : Bool :=
  (a.length == b.length) &&
  ((a.zipWith (fun ra rb =>
      (ra.length == rb.length) &&
      ((ra.zipWith (fun x y => decide (ratAbs (x - y) ≤ atol)) rb).all id)) b).all id)

/-- Total trace of a density matrix over its blocks. -/
def densTotal (dm : DensMat) : ℚ := (dm.map (fun bp => matTrace bp.2)).sum

/-- Concatenation of a list of lists. -/
def listJoin : List (List α) → List α
  | [] => []
  | l :: ls => l ++ listJoin ls

/-- First value bound to key `k` in an association list, defaulting to `d`. -/
def lookupD (l : List (String × α)) (k : String) (d : α) : α :=
  ((l.filter (fun p => p.1 == k)).headD (k, d)).2

/-- Insertion into a sorted list of strings (helper for `sorted(keys)`). -/
def insertStr (s : String) : List String → List String
  | [] => [s]
  | t :: ts => if s ≤ t then s :: t :: ts else t :: insertStr s ts

/-- Python `sorted` on a list of strings (insertion sort). -/
def sortStrs : List String → List String
  | [] => []
  | s :: ss => insertStr s (sortStrs ss)

/-! ## The SumkDFT state

The slice of the external `SumkDFT` object that the embedded functions read
and write: shell bookkeeping, the double-counting state and the accumulated
self-energy.  Self-energies are matrix-valued functions of frequency,
modelled as lists of per-frequency-sample matrices. -/

/-- One matrix per frequency sample: a block of a self-energy. -/
abbrev SigGf := List Mat

/-- A block self-energy for one shell: block name to frequency-sampled matrix. -/
abbrev BlockSig := List (String × SigGf)

structure SumK where
  n_inequiv_shells : Nat
  n_corr_shells : Nat
  corr_to_inequiv : List Nat
  inequiv_to_corr : List Nat
  /-- `corr_shells[i]['dim']` for each correlated shell `i`. -/
  dims : List Nat
  /-- `spin_block_names` (e.g. `["up", "down"]`). -/
  spn : List String
  /-- per correlated shell: the double-counting potential per spin channel. -/
  dc_imp : List DensMat
  /-- per correlated shell: the double-counting energy. -/
  dc_energ : List ℚ
  /-- per correlated shell: the accumulated self-energy. -/
  Sigma_imp : List BlockSig
  /-- per inequivalent shell: solver block structure (block name, dimension). -/
  gf_struct_solver : List (List (String × Nat))
  /-- per inequivalent shell: the `(block, index)` solver-to-sumk map
  (an absent key means the identity). -/
  solver_to_sumk : List (List ((String × Nat) × (String × Nat)))
deriving DecidableEq

/-! ## External collaborator models (triqs_dft_tools SumkDFT) -/

/-- Model of the external `SumkDFT.calc_dc(dens_mat, orb, use_dc_value=v)`
collaborator: for every correlated shell mapped to impurity `orb`, the
potential of every spin channel becomes `v * identity` and the energy becomes
`v` times the total trace of the handed-over density matrix. -/
def calc_dc_value (sk : SumK) (dm : DensMat) (orb : Nat) (v : ℚ) : SumK :=
  { sk with
    dc_imp := mapWithIndex (fun i old =>
      if sk.corr_to_inequiv.get? i = some orb then
        sk.spn.map (fun sp => (sp, scaleMat v (identityMat (sk.dims.getD i 0))))
      else old) 0 sk.dc_imp,
    dc_energ := mapWithIndex (fun i old =>
      if sk.corr_to_inequiv.get? i = some orb then v * densTotal dm else old) 0 sk.dc_energ }

/-- Model of the external `SumkDFT.calc_dc(dens_mat, U, J, orb, use_dc_formula)`
collaborator with a parametric base formula: `pots sp` is the scalar
double-counting potential the formula produces for spin channel `sp`, and `en`
the energy; shells mapped to impurity `orb` are updated. -/
def calc_dc_formula (sk : SumK) (orb : Nat) (pots : String → ℚ) (en : ℚ) : SumK :=
  { sk with
    dc_imp := mapWithIndex (fun i old =>
      if sk.corr_to_inequiv.get? i = some orb then
        sk.spn.map (fun sp => (sp, scaleMat (pots sp) (identityMat (sk.dims.getD i 0))))
      else old) 0 sk.dc_imp,
    dc_energ := mapWithIndex (fun i old =>
      if sk.corr_to_inequiv.get? i = some orb then en else old) 0 sk.dc_energ }

/-- Model of the external `SumkDFT.put_Sigma` collaborator (no rotations,
identity block structure): store a copy of the per-impurity self-energy into
every correlated shell mapped to it. -/
def put_Sigma (sk : SumK) (sigma : List BlockSig) : SumK :=
  { sk with
    Sigma_imp := (List.range sk.n_corr_shells).map (fun icrsh =>
      sigma.getD (sk.corr_to_inequiv.getD icrsh 0) []) }

/-- Model of the external `SumkDFT.add_dc` collaborator (no rotations):
returns `Sigma_imp` with the stored double-counting potential subtracted
channel-wise, the spec's `correctedSigma = sigma - deltaDC` primitive. -/
def add_dc (sk : SumK) : List BlockSig :=
  (List.range sk.n_corr_shells).map (fun icrsh =>
    (sk.Sigma_imp.getD icrsh []).map (fun bp =>
      (bp.1, bp.2.map (fun m => matSub m (lookupD (sk.dc_imp.getD icrsh []) bp.1 [])))))

/-! ## calculate_double_counting (initial_self_energies.py, lines 40-271)

The function is translated stage by stage, in source order: hartree zeroing,
the `dc_fixed_value` early return, the `dc_fixed_occ` overwrite of the copied
density matrices, the base formula loop, the `dc_nominal` hook, the
`dc_factor` rescaling and the `dc_orb_shift` addition. -/

/-- The errors `calculate_double_counting` can raise. -/
inductive DCError
  /-- `NotImplementedError('dc_nominal not implemented in presence of Hartree solver')` -/
  | nominalHartree
  /-- `NotImplementedError('dc_orb_shift not implemented in presence of Hartree solver')` -/
  | orbShiftHartree
  /-- `np.array` of a ragged list of per-site shift slices. -/
  | ragged
  /-- numpy broadcasting error in `dc_per_spin + np.diag(...)`. -/
  | shapeMismatch
deriving DecidableEq

/-- The per-impurity `dc_type` tag: an integer formula tag, or one of the
dynamic-interaction (cRPA) string tags. -/
inductive DCType
  | tag (k : ℤ)
  | crpaStatic
  | crpaStaticQP
  | crpaDynamic
deriving DecidableEq

/-- The slice of `advanced_params` read by `calculate_double_counting`. -/
structure AdvParams where
  dc_fixed_value : Option ℚ
  dc_fixed_occ : List (Option ℚ)
  dc_U : List ℚ
  dc_J : List ℚ
  dc_nominal : Bool
  dc_factor : Option ℚ
  dc_orb_shift : Option (List ℚ)
deriving DecidableEq

/-- The parametric external base formula: density matrix, `U`, `J` and the
integer formula tag give a potential per spin channel and an energy. -/
abbrev FormulaFn := DensMat → ℚ → ℚ → ℤ → (String → ℚ) × ℚ

/-- The parametric external GW double-counting computation used by the
cRPA branches: impurity index to sumk-block potential. -/
abbrev GwFn := DCType → Nat → DensMat

/-- `icrsh_hartree`: impurities whose solver type is the string `'hartree'`. -/
def icrshHartree (solver_type_per_imp : List String) : List Nat :=
  (((enumL solver_type_per_imp).filter (fun p => p.2 == "hartree")).map (fun p => p.1))

/-- `icrsh_not_hartree`: impurities whose solver type is not `'hartree'`. -/
def icrshNotHartree (solver_type_per_imp : List String) : List Nat :=
  (((enumL solver_type_per_imp).filter (fun p => p.2 != "hartree")).map (fun p => p.1))

/-- Lines 75-80: zero out the double counting of every hartree impurity via
`calc_dc(..., use_dc_value=0.0)`. -/
def dcHartreeZero (sk : SumK) (dmDC : List DensMat) (solver_type_per_imp : List String) : SumK :=
  (icrshHartree solver_type_per_imp).foldl
    (fun s i => calc_dc_value s (dmDC.getD i []) i 0) sk

/-- Lines 89-97: for each non-hartree impurity with a fixed occupation, set
every diagonal element of every block of the copied density matrix to
`occ / (n_orb * 2)`. -/
def dcFixedOccDms (sk : SumK) (adv : AdvParams) (dmDC : List DensMat)
    (solver_type_per_imp : List String) : List DensMat :=
  (icrshNotHartree solver_type_per_imp).foldl
    (fun dms i =>
      match adv.dc_fixed_occ.getD i none with
      | none => dms
      | some occ =>
        let n_orb : ℚ := (sk.dims.getD i 0 : ℚ)
        let orb_occ := occ / (n_orb * 2)
        dms.set i ((dms.getD i []).map (fun bp => (bp.1, fillDiag bp.2 orb_occ))))
    dmDC

/-- Lines 100-196: the base formula loop over non-hartree impurities.
`dc_type == 3` is FLL for e_g orbitals (`Uavg = U - J`, `Javg = 2 J`,
formula tag 0); the cRPA tags store the externally computed GW potential
directly at index `icrsh` of `dc_imp`; any other integer tag is the standard
formula. -/
def dcBaseFormula (fdc : FormulaFn) (gwdc : GwFn) (sk : SumK) (dmDC : List DensMat)
    (dc_type : List DCType) (adv : AdvParams) (solver_type_per_imp : List String) : SumK :=
  (icrshNotHartree solver_type_per_imp).foldl
    (fun s i =>
      match dc_type.getD i (DCType.tag 0) with
      | DCType.tag k =>
        if k = 3 then
          let Uavg := adv.dc_U.getD i 0 - adv.dc_J.getD i 0
          let Javg := 2 * adv.dc_J.getD i 0
          let r := fdc (dmDC.getD i []) Uavg Javg 0
          calc_dc_formula s i r.1 r.2
        else
          let r := fdc (dmDC.getD i []) (adv.dc_U.getD i 0) (adv.dc_J.getD i 0) k
          calc_dc_formula s i r.1 r.2
      | t => { s with dc_imp := s.dc_imp.set i (gwdc t i) })
    sk

/-- Lines 206-222, the body of the `dc_nominal` hook (after its guard):
the potential is kept (`dc_imp` is copied unchanged) and each shell's energy
becomes the total trace of the shell's *original* density matrix times the
`[0][0]` potential entry, summed over spin channels and divided by the number
of channels. -/
def dcNominalCore (sk : SumK) (density_matrix : List DensMat) : SumK :=
  let dc_imp := sk.dc_imp
  let dc_new_en := mapWithIndex (fun i old =>
    if i < sk.n_corr_shells then
      let n_DC := densTotal (density_matrix.getD (sk.corr_to_inequiv.getD i 0) [])
      let chans := dc_imp.getD i []
      ((chans.map (fun cp => n_DC * entry00 cp.2)).sum) / (chans.length : ℚ)
    else old) 0 sk.dc_energ
  { sk with dc_imp := dc_imp, dc_energ := dc_new_en }

/-- Lines 200-222: the `dc_nominal` hook including its (miscased) guard
`if 'Hartree' in solver_type_per_imp: raise NotImplementedError(...)`. -/
def dcNominal (sk : SumK) (density_matrix : List DensMat)
    (solver_type_per_imp : List String) : Except DCError SumK :=
  if solver_type_per_imp.contains "Hartree" then Except.error DCError.nominalHartree
  else Except.ok (dcNominalCore sk density_matrix)

/-- Lines 232-239: rescale every potential matrix and every energy by
`dc_factor` when given. -/
def dcFactor (adv : AdvParams) (sk : SumK) : SumK :=
  match adv.dc_factor with
  | none => sk
  | some f =>
    { sk with
      dc_imp := sk.dc_imp.map (fun ch => ch.map (fun cp => (cp.1, scaleMat f cp.2))),
      dc_energ := sk.dc_energ.map (fun e => f * e) }

/-- Lines 255-258: slice the flat shift list into per-impurity lists, each
impurity consuming its orbital dimension many entries in order. -/
def partitionShifts : List Nat → List ℚ → List (List ℚ)
  | [], _ => []
  | d :: ds, s => s.take d :: partitionShifts ds (s.drop d)

/-- `np.array(list_of_rows)` succeeds as a 2-D array iff the rows all have
the same length. -/
def npRect (rows : List (List ℚ)) : Bool :=
  match rows with
  | [] => true
  | r :: rs => rs.all (fun q => q.length == r.length)

/-- The per-inequivalent-shell orbital dimensions as read by the shift loop
(`sum_k.corr_shells[icrsh]['dim']` for `icrsh in range(n_inequiv_shells)`). -/
def inequivDims (sk : SumK) : List Nat :=
  (List.range sk.n_inequiv_shells).map (fun i => sk.dims.getD i 0)

/-- Lines 248-269: the `dc_orb_shift` hook.  After the (miscased) `'Hartree'`
guard, the flat list of scalars is partitioned across impurities by orbital
dimension, turned into a 2-D array (failing if ragged), added as a diagonal
to each impurity's potential (numpy broadcasting), and written back to every
correlated shell. -/
def dcOrbShift (sk : SumK) (shift : List ℚ)
    (solver_type_per_imp : List String) : Except DCError SumK :=
  if solver_type_per_imp.contains "Hartree" then Except.error DCError.orbShiftHartree
  else
    let rows := partitionShifts (inequivDims sk) shift
    if npRect rows then
      let dcOpt : Option (List DensMat) :=
        traverseOpt (fun i =>
          traverseOpt (fun cp =>
            (matAddB cp.2 (diagMat (rows.getD i []))).map (fun m => (cp.1, m)))
            (sk.dc_imp.getD (sk.inequiv_to_corr.getD i 0) []))
          (List.range sk.n_inequiv_shells)
      match dcOpt with
      | none => Except.error DCError.shapeMismatch
      | some dc =>
        Except.ok { sk with
          dc_imp := (List.range sk.n_corr_shells).map (fun ish =>
            dc.getD (sk.corr_to_inequiv.getD ish 0) []) }
    else Except.error DCError.ragged

/-- `calculate_double_counting` (initial_self_energies.py, lines 40-271).
Returns the updated SumkDFT state together with the caller's
`density_matrix` argument (whose final value the embedding threads
explicitly, the function's manipulations going to the `deepcopy`). -/
def calculate_double_counting (fdc : FormulaFn) (gwdc : GwFn) (sk0 : SumK)
    (density_matrix : List DensMat) (dc_type : List DCType) (adv : AdvParams)
    (solver_type_per_imp : List String) : Except DCError (SumK × List DensMat) :=
  let density_matrix_DC := density_matrix
  let sk1 := dcHartreeZero sk0 density_matrix_DC solver_type_per_imp
  match adv.dc_fixed_value with
  | some v =>
    Except.ok ((icrshNotHartree solver_type_per_imp).foldl
      (fun s i => calc_dc_value s (density_matrix_DC.getD i []) i v) sk1, density_matrix)
  | none =>
    let dmDC2 := dcFixedOccDms sk1 adv density_matrix_DC solver_type_per_imp
    let sk2 := dcBaseFormula fdc gwdc sk1 dmDC2 dc_type adv solver_type_per_imp
    let afterNominal : Except DCError SumK :=
      if adv.dc_nominal then dcNominal sk2 density_matrix solver_type_per_imp
      else Except.ok sk2
    match afterNominal with
    | Except.error e => Except.error e
    | Except.ok sk3 =>
      let sk4 := dcFactor adv sk3
      match adv.dc_orb_shift with
      | none => Except.ok (sk4, density_matrix)
      | some shift =>
        match dcOrbShift sk4 shift solver_type_per_imp with
        | Except.error e => Except.error e
        | Except.ok sk5 => Except.ok (sk5, density_matrix)

/-! ## _sumk_sigma_to_solver_struct and _set_loaded_sigma
(initial_self_energies.py, lines 319-434) -/

/-- `solver_to_sumk[ish][(block, ind)]`, defaulting to the identity when the
key is absent. -/
def s2sLookup (m : List ((String × Nat) × (String × Nat))) (k : String × Nat) : String × Nat :=
  ((m.filter (fun p => p.1 == k)).headD (k, k)).2

/-- Entry `(i, j)` of frequency sample `t` of block `bname` of a shell
self-energy. -/
def sigEntry (sig : BlockSig) (bname : String) (t i j : Nat) : ℚ :=
  (((lookupD sig bname []).getD t []).getD i []).getD j 0

/-- `_sumk_sigma_to_solver_struct` (lines 319-359, no-rotation configuration):
re-express a list of sumk-block self-energies in the current solver block
structure, the entries pulled through `solver_to_sumk`.  The frequency mesh
length is taken from the first shell's first block, as in the source's
`Gf(mesh=Sigma_local[0].mesh, ...)`. -/
def sumk_sigma_to_solver_struct (sk : SumK) (start_sigma : List BlockSig) : List BlockSig :=
  let nw := ((start_sigma.headD []).headD ("", [])).2.length
  (List.range sk.n_inequiv_shells).map (fun ish =>
    (sk.gf_struct_solver.getD ish []).map (fun bd =>
      (bd.1, (List.range nw).map (fun t =>
        (List.range bd.2).map (fun ind1 =>
          (List.range bd.2).map (fun ind2 =>
            let p1 := s2sLookup (sk.solver_to_sumk.getD ish []) (bd.1, ind1)
            let p2 := s2sLookup (sk.solver_to_sumk.getD ish []) (bd.1, ind2)
            sigEntry (start_sigma.getD (sk.inequiv_to_corr.getD ish 0) []) p1.1 t p1.2 p2.2))))))

/-- The errors `_set_loaded_sigma` can raise (both `ValueError` in Python). -/
inductive LoadSigmaError
  /-- different number of correlated shells in the loaded double counting. -/
  | shellCount
  /-- different block structure in the loaded double counting. -/
  | blockMismatch
deriving DecidableEq

/-- Line 395-405: has the double counting changed?  A channel differs when it
is not `np.allclose(..., atol=1e-4, rtol=0)` to the freshly calculated one. -/
def dcChanged (loaded_dc_imp calc_dc_imp : List DensMat) : Bool :=
  (loaded_dc_imp.zip calc_dc_imp).any (fun p =>
    p.1.any (fun cp => !(allcloseMat cp.2 (lookupD p.2 cp.1 []) (1 / 10000))))

/-- `_set_loaded_sigma` (lines 362-434): compare the loaded and the freshly
calculated double counting; when unchanged return the loaded self-energy
untouched, otherwise temporarily overwrite `sum_k.dc_imp` with
`loaded - calculated`, subtract it from the loaded self-energy via the
`add_dc` primitive, re-express in the solver block structure, restore
`sum_k.dc_imp` and zero `sum_k.Sigma_imp`. -/
def set_loaded_sigma (sk : SumK) (loaded_sigma : List BlockSig)
    (loaded_dc_imp : List DensMat) : Except LoadSigmaError (List BlockSig × SumK) :=
  if loaded_dc_imp.length ≠ sk.dc_imp.length then Except.error LoadSigmaError.shellCount
  else if !((loaded_dc_imp.zip sk.dc_imp).all (fun p =>
      sortStrs (p.1.map (fun cp => cp.1)) == sortStrs (p.2.map (fun cp => cp.1)))) then
    Except.error LoadSigmaError.blockMismatch
  else
    let start_sigma := loaded_sigma
    if !(dcChanged loaded_dc_imp sk.dc_imp) then Except.ok (start_sigma, sk)
    else
      let sk1 := put_Sigma sk start_sigma
      let calculated_dc_imp := sk1.dc_imp
      let skDelta := { sk1 with
        dc_imp := (sk1.dc_imp.zip loaded_dc_imp).map (fun p =>
          p.2.map (fun cp => (cp.1, matSub cp.2 (lookupD p.1 cp.1 [])))) }
      let start1 := add_dc skDelta
      let start2 := sumk_sigma_to_solver_struct skDelta start1
      let skRestored := { skDelta with
        dc_imp := calculated_dc_imp,
        Sigma_imp := skDelta.Sigma_imp.map (fun sh =>
          sh.map (fun bp => (bp.1, bp.2.map zeroLike))) }
      Except.ok (start2, skRestored)

/-! ## _extract_quantity_per_inequiv (dmft_cycle.py, lines 61-102) -/

/-- A per-impurity configuration value: either a single (non-list) value or an
explicit Python list (`isinstance(param, list)`). -/
inductive ParamValue (α : Type)
  | single : α → ParamValue α
  | plist : List α → ParamValue α
deriving DecidableEq

/-- `_extract_quantity_per_inequiv`: broadcast a single value to all
inequivalent shells, keep a list of matching length, and raise `IndexError`
otherwise. -/
def extract_quantity_per_inequiv (param : ParamValue α) (n_inequiv_shells : Nat) :
    Except String (List α) :=
  match param with
  | ParamValue.single v => Except.ok (List.replicate n_inequiv_shells v)
  | ParamValue.plist l =>
    if l.length = n_inequiv_shells then Except.ok l
    else Except.error "IndexError: must be list of length n_inequiv_shells or single value"

/-! ## Degeneracy stripping in _determine_block_structure
(dmft_cycle.py, lines 155-171) -/

/-- Python's substring test `sub in orb` on block labels (labels as
character lists). -/
def subAt (sub orb : List Char) : Bool :=
  (List.range (orb.length + 1)).any (fun i => ((orb.drop i).take sub.length) == sub)

/-- Lines 158-168 for one site: keep, from each degeneracy group, the sublist
of labels containing `'up'` and the sublist containing `'down'`, each only
when it still has at least two members. -/
def magneticStripSite (degSite : List (List (List Char))) : List (List (List Char)) :=
  listJoin (degSite.map (fun degOrbs =>
    (["up".toList, "down".toList]).filterMap (fun spin =>
      let deg := degOrbs.filter (fun orb => subAt spin orb)
      if 1 < deg.length then some deg else none)))

/-- Lines 155-171: the final degeneracy-group processing of
`_determine_block_structure`: magnetic runs without spin-orbit strip the
spin degeneracy per site; spin-orbit runs drop all degeneracy groups. -/
def determineDegShells (magnetic : Bool) (so : Nat) (n_inequiv_shells : Nat)
    (deg_shells : List (List (List (List Char)))) : List (List (List (List Char))) :=
  if magnetic && (so == 0) then deg_shells.map magneticStripSite
  else if so == 1 then (List.range n_inequiv_shells).map (fun _ => [])
  else deg_shells

/-! ## The convergence-flag update of _dmft_step (dmft_cycle.py, lines 838-844) -/

/-- Lines 838-844 of `_dmft_step`: the returned `is_converged` flag as a
function of its value on entry and the result of
`convergence.check_convergence` (`none` models Python `None`). -/
def dmft_step_converged_update (is_converged : Bool) (is_now_converged : Option Bool) : Bool :=
  match is_now_converged with
  | none => false
  | some b => is_converged || b

/-! ## Concrete instances used by witnesses and counterexamples -/

/-- A trivial external base formula (the claims hold for every formula;
witnesses use this one). -/
def fdcZero : FormulaFn := fun _ _ _ _ => (fun _ => 0, 0)

/-- A constant external base formula with potential 3 and energy 5. -/
def fdcThree : FormulaFn := fun _ _ _ _ => (fun _ => 3, 5)

/-- A trivial external GW kernel for witnesses. -/
def gwdcZero : GwFn := fun _ _ => []

/-- One correlated shell of dimension 1 with identity shell maps. -/
def skOne : SumK :=
  { n_inequiv_shells := 1, n_corr_shells := 1,
    corr_to_inequiv := [0], inequiv_to_corr := [0],
    dims := [1], spn := ["up", "down"],
    dc_imp := [[("up", [[9]]), ("down", [[9]])]],
    dc_energ := [7],
    Sigma_imp := [], gf_struct_solver := [], solver_to_sumk := [] }

/-- A density matrix for `skOne`. -/
def dmOne : List DensMat := [[("up", [[1]]), ("down", [[1]])]]

/-- Two correlated shells of dimension 1 with identity shell maps. -/
def skTwo : SumK :=
  { n_inequiv_shells := 2, n_corr_shells := 2,
    corr_to_inequiv := [0, 1], inequiv_to_corr := [0, 1],
    dims := [1, 1], spn := ["up", "down"],
    dc_imp := [[("up", [[0]]), ("down", [[0]])], [("up", [[0]]), ("down", [[0]])]],
    dc_energ := [0, 0],
    Sigma_imp := [], gf_struct_solver := [], solver_to_sumk := [] }

/-- Density matrices for `skTwo`. -/
def dmTwo : List DensMat :=
  [[("up", [[1]]), ("down", [[1]])], [("up", [[1]]), ("down", [[1]])]]

/-- Advanced parameters requesting nominal double counting, nothing else. -/
def advNominal : AdvParams :=
  { dc_fixed_value := none, dc_fixed_occ := [none], dc_U := [4], dc_J := [1],
    dc_nominal := true, dc_factor := none, dc_orb_shift := none }

/-- Advanced parameters with only an orbital shift `[5]`. -/
def advShift5 : AdvParams :=
  { dc_fixed_value := none, dc_fixed_occ := [none], dc_U := [4], dc_J := [1],
    dc_nominal := false, dc_factor := none, dc_orb_shift := some [5] }

/-- Advanced parameters with only an orbital shift `[1, 2, 3]`
(three scalars for two one-orbital impurities). -/
def advShift123 : AdvParams :=
  { dc_fixed_value := none, dc_fixed_occ := [none, none], dc_U := [4, 4], dc_J := [1, 1],
    dc_nominal := false, dc_factor := none, dc_orb_shift := some [1, 2, 3] }

/-- Shape predicate: a `d × d` matrix. -/
def matShape (m : Mat) (d : Nat) : Prop :=
  m.length = d ∧ ∀ row ∈ m, row.length = d

/-- The data of one solver block for the `_set_loaded_sigma` theorems:
block name, dimension, loaded double-counting matrix, freshly calculated
double-counting matrix, loaded self-energy samples. -/
structure ChanSpec where
  cname : String
  cdim : Nat
  ldc : Mat
  cdc : Mat
  lsig : List Mat
deriving DecidableEq

/-- The loaded double counting built from block data. -/
def mkLoadedDC (shells : List (List ChanSpec)) : List DensMat :=
  shells.map (fun s => s.map (fun c => (c.cname, c.ldc)))

/-- The freshly calculated double counting built from block data. -/
def mkCalcDC (shells : List (List ChanSpec)) : List DensMat :=
  shells.map (fun s => s.map (fun c => (c.cname, c.cdc)))

/-- The loaded self-energy built from block data. -/
def mkLoadedSigma (shells : List (List ChanSpec)) : List BlockSig :=
  shells.map (fun s => s.map (fun c => (c.cname, c.lsig)))

/-- A SumkDFT state with identity shell maps and trivial solver-to-sumk
mapping holding the freshly calculated double counting of the block data. -/
def mkSK (shells : List (List ChanSpec)) : SumK :=
  { n_inequiv_shells := shells.length, n_corr_shells := shells.length,
    corr_to_inequiv := List.range shells.length,
    inequiv_to_corr := List.range shells.length,
    dims := shells.map (fun s => (s.headD ⟨"", 0, [], [], []⟩).cdim),
    spn := ["up", "down"],
    dc_imp := mkCalcDC shells,
    dc_energ := shells.map (fun _ => 0),
    Sigma_imp := shells.map (fun s => s.map (fun c => (c.cname, ([] : SigGf)))),
    gf_struct_solver := shells.map (fun s => s.map (fun c => (c.cname, c.cdim))),
    solver_to_sumk := shells.map (fun _ => []) }

/-- What the spec says `LoadExternal` must produce when the double counting
changed: the loaded self-energy corrected by subtracting
`deltaDC = old_dc - new_dc` in every block and frequency sample. -/
def mkCorrectedSigma (shells : List (List ChanSpec)) : List BlockSig :=
  shells.map (fun s => s.map (fun c =>
    (c.cname, c.lsig.map (fun m => matSub m (matSub c.ldc c.cdc)))))

/-- A one-shell, one-channel state for the `_set_loaded_sigma` witnesses:
the freshly calculated DC potential is `[[2]]`. -/
def skLoad : SumK :=
  { n_inequiv_shells := 1, n_corr_shells := 1,
    corr_to_inequiv := [0], inequiv_to_corr := [0],
    dims := [1], spn := ["up"],
    dc_imp := [[("up", [[2]])]],
    dc_energ := [0],
    Sigma_imp := [[("up", [[[9]]])]],
    gf_struct_solver := [[("up", 1)]],
    solver_to_sumk := [[]] }

/-- A loaded self-energy for `skLoad`: one block, one frequency sample `5`. -/
def loadedSigOne : List BlockSig := [[("up", [[[5]]])]]

/-- A loaded double counting `[[3]]`, differing from the calculated `[[2]]`
by more than the `1e-4` tolerance. -/
def loadedDCOne : List DensMat := [[("up", [[3]])]]

/-- A loaded double counting equal to the calculated one of `skLoad`. -/
def loadedDCSame : List DensMat := [[("up", [[2]])]]

/-- Block data for the `C4` witness: one shell with a single channel `up_0`
of dimension 1, loaded DC 3, calculated DC 2, and loaded samples 5 and 7. -/
def shellsW : List (List ChanSpec) :=
  [[⟨"up_0", 1, [[3]], [[2]], [[[5]], [[7]]]⟩]]

/-- The intermediate SumkDFT state reached by `set_loaded_sigma` on block
data after `put_Sigma` and the temporary `loaded - calculated` overwrite of
`dc_imp`. -/
def mkDeltaSK (shells : List (List ChanSpec)) : SumK :=
  { mkSK shells with
    Sigma_imp := (List.range (mkSK shells).n_corr_shells).map (fun icrsh =>
      (mkLoadedSigma shells).getD ((mkSK shells).corr_to_inequiv.getD icrsh 0) []),
    dc_imp := ((mkSK shells).dc_imp.zip (mkLoadedDC shells)).map (fun p =>
      p.2.map (fun cp => (cp.1, matSub cp.2 (lookupD p.1 cp.1 [])))) }

/-! # Helper lemmas -/

/-- Membership in a joined list of lists. -/
theorem mem_listJoin {α : Type} {a : α} {ls : List (List α)} :
    a ∈ listJoin ls ↔ ∃ l ∈ ls, a ∈ l := by
  induction ls with
  | nil => simp [listJoin]
  | cons l ls ih => simp [listJoin, ih]

/-! # Claim C1: stickiness of the converged flag in _dmft_step -/

/-- Claim C1, counterexample: with the engine's converged flag `true` on
entry and an indeterminate (`None`) per-iteration check result, `_dmft_step`
returns a `false` converged flag — the `None` branch of lines 840-841
unconditionally resets the flag, so the claim as stated is false. -/
theorem C1_counterexample : dmft_step_converged_update true none = false := rfl

/-- Claim C1, amended: the converged flag is sticky only across determinate
check results — when `check_convergence` returns a non-`None` result, a flag
that was `true` on entry stays `true` — while a `None` result makes the
returned flag `false` even when it was `true` on entry. -/
theorem C1_converged_flag (b : Bool) (r : Option Bool) :
    (∀ v, r = some v → b = true → dmft_step_converged_update b r = true) ∧
    (r = none → dmft_step_converged_update b r = false) := by
  constructor
  · intro v hv hb
    subst hv; subst hb
    simp [dmft_step_converged_update]
  · intro hr
    subst hr
    rfl

/-- Witness for `C1_converged_flag` at a concrete input. -/
theorem C1_converged_flag_witness :
    dmft_step_converged_update true (some false) = true ∧
    dmft_step_converged_update true none = false :=
  ⟨(C1_converged_flag true (some false)).1 false rfl rfl,
   (C1_converged_flag true none).2 rfl⟩

/-! # Claim C8: per-impurity parameter expansion -/

/-- Claim C8: `_extract_quantity_per_inequiv` maps a single non-list value to
`n_inequiv_shells` copies, keeps a list of exactly that length unchanged, and
fails with an `IndexError` for a list of any other length. -/
theorem C8_per_inequiv_expansion {α : Type} (p : ParamValue α) (n : Nat) :
    (∀ v, p = ParamValue.single v →
      extract_quantity_per_inequiv p n = Except.ok (List.replicate n v)) ∧
    (∀ l, p = ParamValue.plist l → l.length = n →
      extract_quantity_per_inequiv p n = Except.ok l) ∧
    (∀ l, p = ParamValue.plist l → l.length ≠ n →
      extract_quantity_per_inequiv p n =
        Except.error "IndexError: must be list of length n_inequiv_shells or single value") := by
  refine ⟨fun v hv => ?_, fun l hl hlen => ?_, fun l hl hlen => ?_⟩
  · subst hv; rfl
  · subst hl; simp [extract_quantity_per_inequiv, hlen]
  · subst hl; simp [extract_quantity_per_inequiv, hlen]

/-- Witness for `C8_per_inequiv_expansion` at concrete inputs. -/
theorem C8_per_inequiv_expansion_witness :
    extract_quantity_per_inequiv (ParamValue.single (5 : ℤ)) 3 = Except.ok [5, 5, 5] ∧
    extract_quantity_per_inequiv (ParamValue.plist [(1 : ℤ), 2]) 2 = Except.ok [1, 2] ∧
    extract_quantity_per_inequiv (ParamValue.plist [(1 : ℤ), 2, 3]) 2 =
      Except.error "IndexError: must be list of length n_inequiv_shells or single value" :=
  ⟨by simpa using (C8_per_inequiv_expansion (ParamValue.single (5 : ℤ)) 3).1 5 rfl,
   (C8_per_inequiv_expansion (ParamValue.plist [(1 : ℤ), 2]) 2).2.1 [1, 2] rfl rfl,
   (C8_per_inequiv_expansion (ParamValue.plist [(1 : ℤ), 2, 3]) 2).2.2 [1, 2, 3] rfl
     (by decide)⟩

/-! # Claim C5: degeneracy-stripping invariants -/

/-- Claim C5: after `_determine_block_structure`, for a magnetic run with
spin-orbit off no degeneracy group of the resulting block structure mixes a
label containing `'up'` with one containing `'down'` (given that, as in the
`'up_0'`/`'down_0'` naming scheme, no label contains both substrings); for a
run with spin-orbit on the degeneracy-group list is empty for every site. -/
theorem C5_degeneracy_stripping (magnetic : Bool) (so n : Nat)
    (deg : List (List (List (List Char))))
    (hlab : ∀ site ∈ deg, ∀ g ∈ site, ∀ orb ∈ g,
      ¬(subAt "up".toList orb = true ∧ subAt "down".toList orb = true)) :
    (magnetic = true → so = 0 →
      ∀ site ∈ determineDegShells magnetic so n deg, ∀ g ∈ site,
        ¬((∃ a ∈ g, subAt "up".toList a = true) ∧
          (∃ b ∈ g, subAt "down".toList b = true))) ∧
    (so = 1 → ∀ site ∈ determineDegShells magnetic so n deg, site = []) := by
  constructor
  · intro hm hso site hsite g hg hmix
    subst hm; subst hso
    have hred : determineDegShells true 0 n deg = deg.map magneticStripSite := by
      simp [determineDegShells]
    rw [hred] at hsite
    rcases List.mem_map.mp hsite with ⟨d, hd, rfl⟩
    rcases mem_listJoin.mp hg with ⟨innerL, hinner, hginner⟩
    rcases List.mem_map.mp hinner with ⟨degOrbs, hdo, rfl⟩
    rcases List.mem_filterMap.mp hginner with ⟨spin, hspin, hfn⟩
    rcases hmix with ⟨⟨a, ha, hua⟩, ⟨b, hb, hdb⟩⟩
    have hgeq : g = degOrbs.filter (fun orb => subAt spin orb) := by
      by_cases hlt : 1 < (degOrbs.filter (fun orb => subAt spin orb)).length
      · simpa [hlt] using hfn.symm
      · simp [hlt] at hfn
    subst hgeq
    have hspin' : spin = "up".toList ∨ spin = "down".toList := by
      simpa using hspin
    rcases hspin' with hup | hdown
    · subst hup
      have hbmem := List.mem_filter.mp hb
      exact hlab d hd degOrbs hdo b hbmem.1 ⟨hbmem.2, hdb⟩
    · subst hdown
      have hamem := List.mem_filter.mp ha
      exact hlab d hd degOrbs hdo a hamem.1 ⟨hua, hamem.2⟩
  · intro hso site hsite
    subst hso
    have hred : determineDegShells magnetic 1 n deg
        = (List.range n).map (fun _ => []) := by
      simp [determineDegShells]
    rw [hred] at hsite
    rcases List.mem_map.mp hsite with ⟨i, _, rfl⟩
    rfl

/-- Witness for `C5_degeneracy_stripping` at a concrete magnetic input whose
stripped structure is nonempty, and at a spin-orbit input. -/
theorem C5_degeneracy_stripping_witness :
    (¬((∃ a ∈ ["up_0".toList, "up_1".toList], subAt "up".toList a = true) ∧
       (∃ b ∈ ["up_0".toList, "up_1".toList], subAt "down".toList b = true))) ∧
    ([] : List (List (List Char))) = [] := by
  constructor
  · have h := (C5_degeneracy_stripping true 0 1
      [[["up_0".toList, "up_1".toList, "down_0".toList, "down_1".toList]]]
      (by decide)).1 rfl rfl
      [["up_0".toList, "up_1".toList], ["down_0".toList, "down_1".toList]]
      (by decide) ["up_0".toList, "up_1".toList] (by decide)
    simpa using h
  · exact (C5_degeneracy_stripping true 1 1 [] (by decide)).2 rfl [] (by decide)

/-! # Claim C3: nominal double counting together with the hartree solver -/

/-- Claim C3, divergence: requesting nominal double counting with a
`'hartree'` solver does *not* fail — the guard on line 201 compares against
the capitalized string `'Hartree'`, which never matches the lowercase solver
type used everywhere else, so the call returns successfully. -/
theorem C3_nominal_hartree_guard_never_fires :
    advNominal.dc_nominal = true ∧
    (["hartree"].contains "hartree" = true ∧ ["hartree"].contains "Hartree" = false) ∧
    (calculate_double_counting fdcZero gwdcZero skOne dmOne [DCType.tag 0] advNominal
      ["hartree"]).toOption.isSome = true := by
  refine ⟨rfl, ⟨rfl, rfl⟩, ?_⟩
  norm_num [calculate_double_counting, dcHartreeZero, dcFixedOccDms, dcBaseFormula, dcNominal,
    dcNominalCore, dcFactor, dcOrbShift, icrshHartree, icrshNotHartree, enumL, mapWithIndex,
    calc_dc_value, calc_dc_formula, skOne, dmOne, advNominal, fdcZero, gwdcZero,
    scaleMat, identityMat, densTotal, matTrace, diagSum, entry00]
  rfl

/-! # Claim C6: hartree sites keep a zero double counting -/

/-- Claim C6, failing input: with a single `'hartree'` impurity and a
configured orbital shift `[5]`, `calculate_double_counting` returns a
double-counting potential of `5` (not `0`) for the hartree site — the
`'Hartree'` guard on line 249 never fires for the lowercase solver type, so
the shift is added on top of the zeroed hartree potential. -/
theorem C6_hartree_orb_shift_nonzero :
    (Except.map (fun p => p.1.dc_imp)
      (calculate_double_counting fdcZero gwdcZero skOne dmOne [DCType.tag 0] advShift5
        ["hartree"]))
      = Except.ok [[("up", [[5]]), ("down", [[5]])]] ∧ (5 : ℚ) ≠ 0 := by
  constructor
  · norm_num [calculate_double_counting, dcHartreeZero, dcFixedOccDms, dcBaseFormula, dcNominal,
      dcNominalCore, dcFactor, dcOrbShift, icrshHartree, icrshNotHartree, enumL, mapWithIndex,
      calc_dc_value, calc_dc_formula, skOne, dmOne, advShift5, fdcZero, gwdcZero,
      scaleMat, identityMat, densTotal, matTrace, diagSum, partitionShifts, inequivDims, npRect,
      traverseOpt, matAddB, diagMat, List.range_succ, Except.map]
    rfl
  · norm_num

/-! # Claim C2: orbital-resolved shift count -/

set_option maxHeartbeats 2000000 in
/-- Claim C2, counterexample: two one-orbital impurities (total orbital
dimension 2) supplied with three shift scalars.  The claim says the call must
fail with a count-mismatch error; the code succeeds — shifts are consumed in
orbital order and the surplus scalar is silently dropped (the resulting
potentials carry shifts `1` and `2`, the `3` is ignored). -/
theorem C2_counterexample :
    ((inequivDims skTwo).sum = 2 ∧ ([(1 : ℚ), 2, 3].length = 3)) ∧
    (Except.map (fun p => p.1.dc_imp)
      (calculate_double_counting fdcZero gwdcZero skTwo dmTwo [DCType.tag 0, DCType.tag 0]
        advShift123 ["cthyb", "cthyb"]))
      = Except.ok [[("up", [[1]]), ("down", [[1]])], [("up", [[2]]), ("down", [[2]])]] := by
  refine ⟨⟨rfl, rfl⟩, ?_⟩
  simp [calculate_double_counting, dcHartreeZero, dcFixedOccDms, dcBaseFormula, dcNominal,
    dcNominalCore, dcFactor, dcOrbShift, icrshHartree, icrshNotHartree, enumL, mapWithIndex,
    calc_dc_value, calc_dc_formula, skTwo, dmTwo, advShift123, fdcZero, gwdcZero,
    scaleMat, identityMat, densTotal, matTrace, diagSum, partitionShifts, inequivDims, npRect,
    traverseOpt, matAddB, diagMat, List.range_succ, Except.map]

set_option maxHeartbeats 1000000 in
/-- Claim C2, amended: the shift hook performs no count check.  Whenever at
least `sum of orbital dimensions` scalars are supplied, the shifts are
consumed in orbital order — impurity `i` receives the slice starting after the
dimensions of the impurities before it — each impurity's slice has exactly its
orbital dimension, and any surplus scalars are ignored (the partition only
depends on the first `sum` entries). -/
theorem C2_orb_shift_consumption (dims : List Nat) (shifts : List ℚ)
    (hlen : dims.sum ≤ shifts.length) :
    (∀ i, i < dims.length →
      (partitionShifts dims shifts).getD i [] =
        (shifts.drop ((dims.take i).sum)).take (dims.getD i 0)) ∧
    (∀ i, i < dims.length →
      ((partitionShifts dims shifts).getD i []).length = dims.getD i 0) ∧
    partitionShifts dims shifts = partitionShifts dims (shifts.take dims.sum) := by
  refine ⟨?_, ?_, ?_⟩
  · clear hlen
    induction dims generalizing shifts with
    | nil => intro i hi; simp at hi
    | cons d ds ih =>
      intro i hi
      cases i with
      | zero => simp [partitionShifts]
      | succ j =>
        have hj : j < ds.length := by simpa using hi
        have := ih (shifts.drop d) j hj
        simpa [partitionShifts, List.drop_drop, Nat.add_comm] using this
  · induction dims generalizing shifts with
    | nil => intro i hi; simp at hi
    | cons d ds ih =>
      intro i hi
      have hd : d ≤ shifts.length := by
        simp [List.sum_cons] at hlen
        omega
      cases i with
      | zero =>
        simp [partitionShifts, List.length_take]
        omega
      | succ j =>
        have hj : j < ds.length := by simpa using hi
        have hlen' : ds.sum ≤ (shifts.drop d).length := by
          simp [List.length_drop, List.sum_cons] at hlen ⊢
          omega
        have := ih (shifts.drop d) hlen' j hj
        simpa [partitionShifts] using this
  · clear hlen
    induction dims generalizing shifts with
    | nil => simp [partitionShifts]
    | cons d ds ih =>
      simp only [partitionShifts, List.sum_cons]
      rw [List.take_take, List.drop_take]
      have h2 : d ⊓ (d + ds.sum) = d := by omega
      have h3 : d + ds.sum - d = ds.sum := by omega
      rw [h2, h3, ih (shifts.drop d)]

/-- Witness for `C2_orb_shift_consumption` at a concrete input. -/
theorem C2_orb_shift_consumption_witness :
    (partitionShifts [1, 2] [(10 : ℚ), 20, 30, 40]).getD 1 [] = [20, 30] ∧
    ((partitionShifts [1, 2] [(10 : ℚ), 20, 30, 40]).getD 1 []).length = 2 := by
  have h := C2_orb_shift_consumption [1, 2] [(10 : ℚ), 20, 30, 40] (by decide)
  refine ⟨?_, ?_⟩
  · simpa using h.1 1 (by decide)
  · simpa using h.2.1 1 (by decide)

/-! # Claim C9: the density_matrix argument is not mutated -/

/-- Claim C9: `calculate_double_counting` returns the caller's
`density_matrix` unchanged on every successful path — the fixed-occupation
override and the formula evaluations act on the internal `deepcopy`
(threaded separately in this embedding), never on the argument. -/
theorem C9_density_matrix_unchanged (fdc : FormulaFn) (gwdc : GwFn) (sk : SumK)
    (dm : List DensMat) (dct : List DCType) (adv : AdvParams) (stpi : List String) :
    Except.map Prod.snd (calculate_double_counting fdc gwdc sk dm dct adv stpi) =
      Except.map (fun _ => dm) (calculate_double_counting fdc gwdc sk dm dct adv stpi) := by
  simp only [calculate_double_counting]
  split
  · rfl
  · split
    · rfl
    · split
      · rfl
      · split
        · rfl
        · rfl

/-! # Claim C7: the nominal double-counting hook -/

/-- `get?` of `mapWithIndex`: the function is applied at the element's
absolute position. -/
theorem mapWithIndex_getq (f : Nat → α → β) (l : List α) :
    ∀ (i j : Nat), (mapWithIndex f i l).get? j = (l.get? j).map (fun a => f (i + j) a) := by
  induction l with
  | nil => intro i j; simp [mapWithIndex]
  | cons a as ih =>
    intro i j
    cases j with
    | zero => simp [mapWithIndex]
    | succ k =>
      simp only [mapWithIndex, List.get?_cons_succ]
      rw [ih (i + 1) k]
      congr 1
      funext a
      congr 1
      omega

/-- `getD` of `mapWithIndex`: the function is applied at the element's
absolute position. -/
theorem mapWithIndex_getD (f : Nat → α → β) :
    ∀ (l : List α) (i j : Nat) (d : β) (e : α), j < l.length →
      (mapWithIndex f i l).getD j d = f (i + j) (l.getD j e) := by
  intro l
  induction l with
  | nil => intro i j d e hj; simp at hj
  | cons a as ih =>
    intro i j d e hj
    cases j with
    | zero => simp [mapWithIndex]
    | succ k =>
      have hk : k < as.length := by simpa using hj
      simp only [mapWithIndex, List.getD_cons_succ]
      rw [ih (i + 1) k d e hk]
      congr 1
      omega

/-- Claim C7: with `dc_nominal` requested (and no fixed DC value), the
potential is frozen at the value the base formula computed from the
occupation-forced density matrices, while each shell's energy becomes the
*true* density matrix's total trace times the shell's channel potentials
averaged across channels; the hook runs after the base formula and before the
`dc_factor` and `dc_orb_shift` hooks. -/
theorem C7_nominal_double_counting (fdc : FormulaFn) (gwdc : GwFn) (sk0 : SumK)
    (dm : List DensMat) (dct : List DCType) (adv : AdvParams) (stpi : List String)
    (hnom : adv.dc_nominal = true) (hfv : adv.dc_fixed_value = none)
    (hH : stpi.contains "Hartree" = false) :
    let skF := dcBaseFormula fdc gwdc (dcHartreeZero sk0 dm stpi)
      (dcFixedOccDms (dcHartreeZero sk0 dm stpi) adv dm stpi) dct adv stpi
    (dcNominalCore skF dm).dc_imp = skF.dc_imp ∧
    (∀ ish, ish < skF.dc_energ.length → ish < skF.n_corr_shells →
      (dcNominalCore skF dm).dc_energ.getD ish 0 =
        densTotal (dm.getD (skF.corr_to_inequiv.getD ish 0) []) *
          (((skF.dc_imp.getD ish []).map (fun cp => entry00 cp.2)).sum /
            (((skF.dc_imp.getD ish []).length : ℚ)))) ∧
    calculate_double_counting fdc gwdc sk0 dm dct adv stpi =
      (match adv.dc_orb_shift with
       | none => Except.ok (dcFactor adv (dcNominalCore skF dm), dm)
       | some s =>
         match dcOrbShift (dcFactor adv (dcNominalCore skF dm)) s stpi with
         | Except.error e => Except.error e
         | Except.ok sk5 => Except.ok (sk5, dm)) := by
  intro skF
  refine ⟨rfl, ?_, ?_⟩
  · intro ish hlen hcorr
    show (mapWithIndex _ 0 skF.dc_energ).getD ish 0 = _
    rw [mapWithIndex_getD _ skF.dc_energ 0 ish 0 0 hlen]
    simp only [Nat.zero_add, hcorr, if_pos]
    rw [List.sum_map_mul_left]
    rw [mul_div_assoc]
  · simp only [calculate_double_counting, hfv, hnom, if_pos, dcNominal, hH,
      Bool.false_eq_true, if_neg]
    rfl

/-- Witness for `C7_nominal_double_counting` at a concrete input: one
impurity with formula potential 3 and the true density matrix of total
trace 2, giving a recomputed nominal energy `2 * ((3 + 3) / 2) = 6`. -/
theorem C7_nominal_double_counting_witness :
    (dcNominalCore (dcBaseFormula fdcThree gwdcZero (dcHartreeZero skOne dmOne ["cthyb"])
        (dcFixedOccDms (dcHartreeZero skOne dmOne ["cthyb"]) advNominal dmOne ["cthyb"])
        [DCType.tag 0] advNominal ["cthyb"]) dmOne).dc_energ.getD 0 0 = 6 := by
  have h := (C7_nominal_double_counting fdcThree gwdcZero skOne dmOne [DCType.tag 0]
    advNominal ["cthyb"] rfl rfl rfl)
  have hb : dcBaseFormula fdcThree gwdcZero (dcHartreeZero skOne dmOne ["cthyb"])
      (dcFixedOccDms (dcHartreeZero skOne dmOne ["cthyb"]) advNominal dmOne ["cthyb"])
      [DCType.tag 0] advNominal ["cthyb"]
      = { skOne with dc_imp := [[("up", [[3]]), ("down", [[3]])]], dc_energ := [5] } := by
    simp [dcBaseFormula, dcHartreeZero, dcFixedOccDms, icrshHartree, icrshNotHartree,
      enumL, mapWithIndex, calc_dc_value, calc_dc_formula, skOne, dmOne, advNominal,
      fdcThree, scaleMat, identityMat, List.range_succ]
  have h2 := h.2.1 0 (by rw [hb]; simp) (by rw [hb]; simp [skOne])
  rw [h2, hb]
  simp [skOne, dmOne, densTotal, matTrace, diagSum, entry00]
  norm_num

/-! # Claim C10: _set_loaded_sigma restores the DC state and zeroes Sigma -/

/-- Claim C10: on the Hartree-shift-correction path, `_set_loaded_sigma`
undoes its temporary overwrite of the double-counting state before returning:
the returned SumkDFT state holds the freshly calculated `dc_imp` it held on
entry, and the accumulated self-energy `Sigma_imp` has every entry reset to
zero. -/
theorem C10_dc_restored_sigma_zeroed (sk : SumK) (loaded : List BlockSig)
    (ldc : List DensMat) (sig : List BlockSig) (sk2 : SumK)
    (hlen : ldc.length = sk.dc_imp.length)
    (hkeys : ((ldc.zip sk.dc_imp).all (fun p =>
      sortStrs (p.1.map (fun cp => cp.1)) == sortStrs (p.2.map (fun cp => cp.1)))) = true)
    (hchg : dcChanged ldc sk.dc_imp = true)
    (h : set_loaded_sigma sk loaded ldc = Except.ok (sig, sk2)) :
    sk2.dc_imp = sk.dc_imp ∧
    (∀ sh ∈ sk2.Sigma_imp, ∀ bp ∈ sh, ∀ m ∈ bp.2, ∀ row ∈ m, ∀ x ∈ row, x = 0) := by
  simp only [set_loaded_sigma, hlen, hkeys, hchg, ne_eq, not_true_eq_false, if_false,
    Bool.not_true, Bool.false_eq_true, Except.ok.injEq, Prod.mk.injEq] at h
  rcases h with ⟨-, h2⟩
  subst h2
  constructor
  · rfl
  · intro sh hsh bp hbp m hm row hrow x hx
    simp only [put_Sigma] at hsh
    rcases List.mem_map.mp hsh with ⟨sh0, _, rfl⟩
    rcases List.mem_map.mp hbp with ⟨bp0, _, rfl⟩
    rcases List.mem_map.mp hm with ⟨m0, _, rfl⟩
    rcases List.mem_map.mp hrow with ⟨row0, _, rfl⟩
    rcases List.mem_map.mp hx with ⟨x0, _, rfl⟩
    rfl

/-- Witness for `C10_dc_restored_sigma_zeroed` at a concrete input whose
double counting changed from `[[3]]` to `[[2]]`. -/
theorem C10_dc_restored_sigma_zeroed_witness :
    ({ skLoad with Sigma_imp := [[("up", [[[0]]])]] } : SumK).dc_imp = skLoad.dc_imp := by
  refine (C10_dc_restored_sigma_zeroed skLoad loadedSigOne loadedDCOne
    [[("up", [[[4]]])]] { skLoad with Sigma_imp := [[("up", [[[0]]])]] } rfl rfl ?_ ?_).1
  · simp [dcChanged, allcloseMat, loadedDCOne, skLoad, lookupD, ratAbs]
    norm_num
  · simp [set_loaded_sigma, skLoad, loadedSigOne, loadedDCOne, dcChanged, allcloseMat,
      lookupD, ratAbs, sortStrs, insertStr, put_Sigma, add_dc, matSub,
      sumk_sigma_to_solver_struct, s2sLookup, sigEntry, zeroLike, List.range_succ]
    norm_num

/-! # Claim C4: helper lemmas for the loaded-sigma correction -/

/-- `getD` of a `range`-indexed map evaluates the function. -/
theorem getD_map_range {α : Type} (g : Nat → α) (n i : Nat) (d : α) (h : i < n) :
    ((List.range n).map g).getD i d = g i := by
  rw [List.getD_eq_getElem?_getD, List.getElem?_map, List.getElem?_range h]
  rfl

/-- `getD` on `List.range`. -/
theorem getD_range (n i : Nat) (h : i < n) : (List.range n).getD i 0 = i := by
  rw [List.getD_eq_getElem?_getD, List.getElem?_range h]
  rfl

/-- `getD` of a mapped list at an in-range position. -/
theorem getD_map_of_lt {α β : Type} (l : List α) (f : α → β) (i : Nat) (d : β) (e : α)
    (h : i < l.length) :
    (l.map f).getD i d = f (l.getD i e) := by
  rw [List.getD_eq_getElem?_getD, List.getElem?_map, List.getElem?_eq_getElem h]
  simp [List.getD_eq_getElem?_getD, List.getElem?_eq_getElem h]

/-- `getD` at an in-range position is a member. -/
theorem getD_mem_of_lt {α : Type} (l : List α) (i : Nat) (d : α) (h : i < l.length) :
    l.getD i d ∈ l := by
  rw [List.getD_eq_getElem?_getD, List.getElem?_eq_getElem h]
  exact List.getElem_mem h

/-- `all` over a mapped list. -/
theorem all_map_general {α β : Type} (l : List α) (f : α → β) (p : β → Bool) :
    (l.map f).all p = l.all (fun x => p (f x)) := by
  induction l with
  | nil => rfl
  | cons a as ih => simp [ih]

/-- Association lookup over a keyed map of a list with nodup keys. -/
theorem lookupD_map_key {β : Type} (v : ChanSpec → β) (s : List ChanSpec) (c : ChanSpec)
    (hc : c ∈ s) (hnd : (s.map (fun c' => c'.cname)).Nodup) (d : β) :
    lookupD (s.map (fun c' => (c'.cname, v c'))) c.cname d = v c := by
  induction s with
  | nil => cases hc
  | cons c0 s ih =>
    simp only [List.map_cons, List.nodup_cons] at hnd
    rcases List.mem_cons.mp hc with rfl | hc'
    · simp [lookupD]
    · by_cases he : c0.cname = c.cname
      · exfalso
        have hmem : c.cname ∈ s.map (fun c' => c'.cname) := List.mem_map_of_mem _ hc'
        exact hnd.1 (he ▸ hmem)
      · have hne : ((c0.cname, v c0).1 == c.cname) = false := by
          simpa using he
        simp only [lookupD, List.map_cons, List.filter_cons, hne]
        exact ih hc' hnd.2

/-- Rebuilding a list from its in-range `getD` values. -/
theorem map_range_getD {α : Type} (l : List α) (d : α) :
    (List.range l.length).map (fun j => l.getD j d) = l := by
  induction l with
  | nil => rfl
  | cons a as ih =>
    rw [List.length_cons, List.range_succ_eq_map]
    simp only [List.map_cons, List.getD_cons_zero, List.map_map]
    congr 1

/-- Rebuilding a mapped list from its in-range `getD` values. -/
theorem map_range_getD_map {α β : Type} (l : List α) (d : α) (G : α → β) :
    (List.range l.length).map (fun i => G (l.getD i d)) = l.map G := by
  induction l with
  | nil => rfl
  | cons a as ih =>
    rw [List.length_cons, List.range_succ_eq_map]
    simp only [List.map_cons, List.getD_cons_zero, List.map_map]
    congr 1

/-- Entrywise rebuild of a well-shaped matrix. -/
theorem rebuild_mat (m : Mat) (dd : Nat) (hm : m.length = dd)
    (hr : ∀ row ∈ m, row.length = dd) :
    (List.range dd).map (fun i => (List.range dd).map (fun j => (m.getD i []).getD j 0)) = m := by
  subst hm
  have hrow : ∀ i ∈ List.range m.length,
      (List.range m.length).map (fun j => (m.getD i []).getD j 0) = m.getD i [] := by
    intro i hi
    have hilt : i < m.length := List.mem_range.mp hi
    have hmem : m.getD i [] ∈ m := getD_mem_of_lt m i [] hilt
    have hlen : (m.getD i []).length = m.length := hr _ hmem
    calc (List.range m.length).map (fun j => (m.getD i []).getD j 0)
        = (List.range (m.getD i []).length).map (fun j => (m.getD i []).getD j 0) := by rw [hlen]
      _ = m.getD i [] := map_range_getD _ 0
  rw [List.map_congr_left hrow, map_range_getD]

/-- Entrywise rebuild of a well-shaped frequency-sampled block. -/
theorem rebuild_sig (L : SigGf) (nw dd : Nat) (hL : L.length = nw)
    (hm : ∀ m ∈ L, matShape m dd) :
    (List.range nw).map (fun t => (List.range dd).map (fun i => (List.range dd).map (fun j =>
      ((L.getD t []).getD i []).getD j 0))) = L := by
  subst hL
  have hsample : ∀ t ∈ List.range L.length,
      (List.range dd).map (fun i => (List.range dd).map (fun j =>
        ((L.getD t []).getD i []).getD j 0)) = L.getD t [] := by
    intro t ht
    have htlt : t < L.length := List.mem_range.mp ht
    have hmem : L.getD t [] ∈ L := getD_mem_of_lt L t [] htlt
    exact rebuild_mat _ dd (hm _ hmem).1 (hm _ hmem).2
  rw [List.map_congr_left hsample, map_range_getD]

/-- `matSub` preserves the square shape. -/
theorem matSub_shape (a b : Mat) (dd : Nat) (ha : matShape a dd) (hb : matShape b dd) :
    matShape (matSub a b) dd := by
  constructor
  · rw [matSub, List.length_zipWith, ha.1, hb.1, Nat.min_self]
  · intro row hrow
    rw [matSub] at hrow
    obtain ⟨i, hi, heq⟩ := List.getElem_of_mem hrow
    rw [List.getElem_zipWith] at heq
    subst heq
    rw [List.length_zipWith]
    have hia : i < a.length := by
      rw [List.length_zipWith] at hi
      omega
    have hib : i < b.length := by
      rw [List.length_zipWith] at hi
      omega
    rw [ha.2 _ (List.getElem_mem hia), hb.2 _ (List.getElem_mem hib), Nat.min_self]

/-- The `(0,0)` entry of a subtraction of two nonempty square matrices. -/
theorem entry00_matSub (a b : Mat) (dd : Nat) (hd : 0 < dd)
    (ha : matShape a dd) (hb : matShape b dd) :
    entry00 (matSub a b) = entry00 a - entry00 b := by
  cases a with
  | nil =>
    exfalso
    have := ha.1
    simp at this
    omega
  | cons ra as =>
    cases b with
    | nil =>
      exfalso
      have := hb.1
      simp at this
      omega
    | cons rb bs =>
      have hra : ra.length = dd := ha.2 _ (by simp)
      have hrb : rb.length = dd := hb.2 _ (by simp)
      cases ra with
      | nil => simp at hra; omega
      | cons x xs =>
        cases rb with
        | nil => simp at hrb; omega
        | cons y ys => simp [matSub, entry00]

/-- The double-counting potential of the intermediate state is the
channel-wise difference `loaded - calculated`. -/
theorem mkDeltaSK_dc_imp (shells : List (List ChanSpec))
    (hnd : ∀ s ∈ shells, (s.map (fun c => c.cname)).Nodup) :
    (mkDeltaSK shells).dc_imp
      = shells.map (fun s => s.map (fun c => (c.cname, matSub c.ldc c.cdc))) := by
  show (((mkSK shells).dc_imp).zip (mkLoadedDC shells)).map _ = _
  rw [show (mkSK shells).dc_imp = shells.map (fun s => s.map (fun c => (c.cname, c.cdc)))
    from rfl]
  rw [mkLoadedDC, List.zip_map', List.map_map]
  refine List.map_congr_left ?_
  intro s hs
  simp only [Function.comp_apply]
  rw [List.map_map]
  refine List.map_congr_left ?_
  intro c hc
  simp only [Function.comp_apply]
  congr 1
  exact congrArg (matSub c.ldc) (lookupD_map_key (fun c' => c'.cdc) s c hc (hnd s hs) [])

/-- `add_dc` on the intermediate state subtracts `loaded - calculated` from
every frequency sample of the loaded self-energy. -/
theorem add_dc_mkDeltaSK (shells : List (List ChanSpec))
    (hnd : ∀ s ∈ shells, (s.map (fun c => c.cname)).Nodup) :
    add_dc (mkDeltaSK shells)
      = shells.map (fun s => s.map (fun c =>
          (c.cname, c.lsig.map (fun m => matSub m (matSub c.ldc c.cdc))))) := by
  rw [add_dc]
  rw [show (mkDeltaSK shells).n_corr_shells = shells.length from rfl]
  rw [← map_range_getD_map shells [] (fun s => s.map (fun c =>
    (c.cname, c.lsig.map (fun m => matSub m (matSub c.ldc c.cdc)))))]
  refine List.map_congr_left ?_
  intro i hi
  have hilt : i < shells.length := List.mem_range.mp hi
  have hsig : (mkDeltaSK shells).Sigma_imp.getD i []
      = (shells.getD i []).map (fun c => (c.cname, c.lsig)) := by
    show ((List.range (mkSK shells).n_corr_shells).map _).getD i [] = _
    rw [show (mkSK shells).n_corr_shells = shells.length from rfl]
    rw [getD_map_range _ _ _ _ hilt]
    rw [show (mkSK shells).corr_to_inequiv = List.range shells.length from rfl]
    rw [getD_range _ _ hilt]
    rw [mkLoadedSigma]
    exact getD_map_of_lt shells _ i [] [] hilt
  rw [hsig, mkDeltaSK_dc_imp shells hnd]
  have hdci : (shells.map (fun s => s.map (fun c => (c.cname, matSub c.ldc c.cdc)))).getD i []
      = (shells.getD i []).map (fun c => (c.cname, matSub c.ldc c.cdc)) :=
    getD_map_of_lt shells _ i [] [] hilt
  rw [hdci, List.map_map]
  refine List.map_congr_left ?_
  intro c hc
  simp only [Function.comp_apply]
  have hsmem : shells.getD i [] ∈ shells := getD_mem_of_lt shells i [] hilt
  congr 1
  exact congrArg (fun dm => c.lsig.map (fun m => matSub m dm))
    (lookupD_map_key (fun c' => matSub c'.ldc c'.cdc) (shells.getD i []) c hc (hnd _ hsmem) [])

/-- Re-expressing the corrected self-energy in the (identity) solver block
structure reproduces it block by block and sample by sample. -/
theorem solver_struct_mkDeltaSK (shells : List (List ChanSpec)) (nf : Nat)
    (hne : ∀ s ∈ shells, s ≠ [])
    (hnd : ∀ s ∈ shells, (s.map (fun c => c.cname)).Nodup)
    (hshape : ∀ s ∈ shells, ∀ c ∈ s, 0 < c.cdim ∧ matShape c.ldc c.cdim ∧
      matShape c.cdc c.cdim ∧ c.lsig.length = nf ∧ (∀ m ∈ c.lsig, matShape m c.cdim)) :
    sumk_sigma_to_solver_struct (mkDeltaSK shells)
      (shells.map (fun s => s.map (fun c =>
        (c.cname, c.lsig.map (fun m => matSub m (matSub c.ldc c.cdc))))))
      = mkCorrectedSigma shells := by
  cases shells with
  | nil => rfl
  | cons s0 rest =>
    obtain ⟨c0, s0tl, hs0⟩ : ∃ c0 s0tl, s0 = c0 :: s0tl := by
      cases s0 with
      | nil => exact absurd rfl (hne [] (by simp))
      | cons c0 tl => exact ⟨c0, tl, rfl⟩
    have hnw : ((((s0 :: rest).map (fun s => s.map (fun c =>
        (c.cname, c.lsig.map (fun m => matSub m (matSub c.ldc c.cdc)))))).headD []).headD
          ("", [])).2.length = nf := by
      subst hs0
      simp only [List.map_cons, List.headD_cons, List.length_map]
      exact (hshape (c0 :: s0tl) (by simp) c0 (by simp)).2.2.2.1
    simp only [sumk_sigma_to_solver_struct]
    simp only [hnw]
    rw [show (mkDeltaSK (s0 :: rest)).n_inequiv_shells = (s0 :: rest).length from rfl]
    rw [show mkCorrectedSigma (s0 :: rest) = (s0 :: rest).map (fun s => s.map (fun c =>
      (c.cname, c.lsig.map (fun m => matSub m (matSub c.ldc c.cdc))))) from rfl]
    conv_rhs => rw [← map_range_getD_map (s0 :: rest) [] (fun s => s.map (fun c =>
      (c.cname, c.lsig.map (fun m => matSub m (matSub c.ldc c.cdc)))))]
    refine List.map_congr_left ?_
    intro ish hish
    have hilt : ish < (s0 :: rest).length := List.mem_range.mp hish
    have hgf : (mkDeltaSK (s0 :: rest)).gf_struct_solver.getD ish []
        = ((s0 :: rest).getD ish []).map (fun c => (c.cname, c.cdim)) := by
      show ((s0 :: rest).map _).getD ish [] = _
      exact getD_map_of_lt _ _ ish [] [] hilt
    have hs2s : (mkDeltaSK (s0 :: rest)).solver_to_sumk.getD ish [] = [] := by
      show ((s0 :: rest).map
        (fun _ => ([] : List ((String × Nat) × (String × Nat))))).getD ish [] = []
      rw [getD_map_of_lt _ _ ish [] [] hilt]
    have hi2c : (mkDeltaSK (s0 :: rest)).inequiv_to_corr.getD ish 0 = ish := by
      show (List.range (s0 :: rest).length).getD ish 0 = ish
      exact getD_range _ _ hilt
    have hstart : ((s0 :: rest).map (fun s => s.map (fun c =>
        (c.cname, c.lsig.map (fun m => matSub m (matSub c.ldc c.cdc)))))).getD ish []
        = ((s0 :: rest).getD ish []).map (fun c =>
            (c.cname, c.lsig.map (fun m => matSub m (matSub c.ldc c.cdc)))) :=
      getD_map_of_lt _ _ ish [] [] hilt
    simp only [hgf, hs2s, hi2c, hstart, s2sLookup, List.filter_nil, List.headD_nil]
    rw [List.map_map]
    refine List.map_congr_left ?_
    intro c hc
    simp only [Function.comp_apply]
    have hshl : (s0 :: rest).getD ish [] ∈ (s0 :: rest) := getD_mem_of_lt _ ish [] hilt
    obtain ⟨hdim, hldc, hcdc, hnf, hms⟩ := hshape _ hshl c hc
    simp only [sigEntry]
    simp only [lookupD_map_key (fun c' =>
      c'.lsig.map (fun m => matSub m (matSub c'.ldc c'.cdc)))
      ((s0 :: rest).getD ish []) c hc (hnd _ hshl) []]
    congr 1
    refine rebuild_sig _ nf c.cdim ?_ ?_
    · rw [List.length_map, hnf]
    · intro m' hm'
      rcases List.mem_map.mp hm' with ⟨m, hm, rfl⟩
      exact matSub_shape _ _ _ (hms m hm) (matSub_shape _ _ _ hldc hcdc)

/-- Claim C4: when loaded and freshly calculated double counting agree
channel-by-channel within the `1e-4` tolerance, `_set_loaded_sigma` returns
the loaded self-energy unchanged (and leaves the state untouched); when they
differ, the returned self-energy is the loaded one corrected by subtracting
`deltaDC = old_dc - new_dc` from every block and frequency sample — in
particular the zeroth-orbital value shifts by exactly `-Δ` — applied via the
`add_dc` primitive and re-expressed in the current solver block structure. -/
theorem C4_loaded_sigma_correction :
    (∀ (sk : SumK) (loaded : List BlockSig) (ldc : List DensMat),
      ldc.length = sk.dc_imp.length →
      ((ldc.zip sk.dc_imp).all (fun p =>
        sortStrs (p.1.map (fun cp => cp.1)) == sortStrs (p.2.map (fun cp => cp.1)))) = true →
      dcChanged ldc sk.dc_imp = false →
      set_loaded_sigma sk loaded ldc = Except.ok (loaded, sk)) ∧
    (∀ (shells : List (List ChanSpec)) (nf : Nat),
      (∀ s ∈ shells, s ≠ []) →
      (∀ s ∈ shells, (s.map (fun c => c.cname)).Nodup) →
      (∀ s ∈ shells, ∀ c ∈ s, 0 < c.cdim ∧ matShape c.ldc c.cdim ∧ matShape c.cdc c.cdim ∧
        c.lsig.length = nf ∧ (∀ m ∈ c.lsig, matShape m c.cdim)) →
      dcChanged (mkLoadedDC shells) (mkCalcDC shells) = true →
      (Except.map Prod.fst (set_loaded_sigma (mkSK shells) (mkLoadedSigma shells)
          (mkLoadedDC shells)) = Except.ok (mkCorrectedSigma shells)) ∧
      (∀ s ∈ shells, ∀ c ∈ s, ∀ m ∈ c.lsig,
        entry00 (matSub m (matSub c.ldc c.cdc))
          = entry00 m - (entry00 c.ldc - entry00 c.cdc))) := by
  constructor
  · intro sk loaded ldc hlen hkeys hnc
    simp only [set_loaded_sigma, hlen, hkeys, hnc, ne_eq, not_true_eq_false, if_false,
      Bool.not_true, Bool.not_false, if_true, Bool.false_eq_true]
  · intro shells nf hne hnd hshape hchg
    have hlen : (mkLoadedDC shells).length = (mkSK shells).dc_imp.length := by
      simp [mkLoadedDC, mkCalcDC, mkSK]
    have hkeys : (((mkLoadedDC shells).zip (mkSK shells).dc_imp).all (fun p =>
        sortStrs (p.1.map (fun cp => cp.1)) == sortStrs (p.2.map (fun cp => cp.1)))) = true := by
      show (((shells.map (fun s => s.map (fun c => (c.cname, c.ldc)))).zip
        (shells.map (fun s => s.map (fun c => (c.cname, c.cdc))))).all _) = true
      rw [List.zip_map', all_map_general, List.all_eq_true]
      intro s hs
      show (sortStrs ((s.map (fun c => (c.cname, c.ldc))).map (fun cp => cp.1))
        == sortStrs ((s.map (fun c => (c.cname, c.cdc))).map (fun cp => cp.1))) = true
      have h1 : ((s.map (fun c => (c.cname, c.ldc))).map (fun cp => cp.1))
          = s.map (fun c => c.cname) := by
        rw [List.map_map]
        rfl
      have h2 : ((s.map (fun c => (c.cname, c.cdc))).map (fun cp => cp.1))
          = s.map (fun c => c.cname) := by
        rw [List.map_map]
        rfl
      rw [h1, h2]
      exact beq_self_eq_true _
    refine ⟨?_, ?_⟩
    · have hchg' : dcChanged (mkLoadedDC shells) (mkSK shells).dc_imp = true := hchg
      simp only [set_loaded_sigma, hlen, hkeys, hchg', ne_eq, not_true_eq_false, if_false,
        Bool.not_true, Bool.false_eq_true, Except.map]
      have key : sumk_sigma_to_solver_struct (mkDeltaSK shells) (add_dc (mkDeltaSK shells))
          = mkCorrectedSigma shells := by
        rw [add_dc_mkDeltaSK shells hnd]
        exact solver_struct_mkDeltaSK shells nf hne hnd hshape
      exact congrArg Except.ok key
    · intro s hs c hc m hm
      obtain ⟨hdim, hldc, hcdc, hnf, hms⟩ := hshape s hs c hc
      rw [entry00_matSub m (matSub c.ldc c.cdc) c.cdim hdim (hms m hm)
        (matSub_shape _ _ _ hldc hcdc)]
      rw [entry00_matSub c.ldc c.cdc c.cdim hdim hldc hcdc]

/-- Witness for `C4_loaded_sigma_correction`: an unchanged-DC input returns
the loaded self-energy as is, and a changed-DC input (loaded DC 3 vs
calculated DC 2) returns the loaded samples 5 and 7 shifted to 4 and 6. -/
theorem C4_loaded_sigma_correction_witness :
    (set_loaded_sigma skLoad loadedSigOne loadedDCSame = Except.ok (loadedSigOne, skLoad)) ∧
    (Except.map Prod.fst (set_loaded_sigma (mkSK shellsW) (mkLoadedSigma shellsW)
      (mkLoadedDC shellsW)) = Except.ok (mkCorrectedSigma shellsW)) ∧
    mkCorrectedSigma shellsW = [[("up_0", [[[4]], [[6]]])]] := by
  refine ⟨?_, ?_, ?_⟩
  · refine (C4_loaded_sigma_correction).1 skLoad loadedSigOne loadedDCSame rfl rfl ?_
    simp [dcChanged, allcloseMat, loadedDCSame, skLoad, lookupD, ratAbs]
  · refine ((C4_loaded_sigma_correction).2 shellsW 2 (by decide) (by decide)
      (by norm_num [shellsW, matShape]) ?_).1
    simp [dcChanged, allcloseMat, mkLoadedDC, mkCalcDC, shellsW, lookupD, ratAbs]
    norm_num
  · simp [mkCorrectedSigma, shellsW, matSub]
    norm_num
